import Mathlib

/-!
# Verification of the generic sorting engine (`src/ex1/src/merge_quick_sort.c`)

Shallow embedding of the comparator-driven sorting engine: the exchange
primitive `swap`, the randomized pivot selector `choose_random_pivot`, the
Lomuto partitioner `partition`, the quicksort driver
`quick_sort_rec`/`quick_sort`, and the merge primitive `merge` with the
mergesort driver `merge_sort_rec`/`merge_sort`.

The C code operates in place on an array `void **base` of opaque element
references, with a comparator returning a signed `int`.  We model the array
as a `List α` (index `k` of the array is `l.getD k default`), the comparator
as `cmp : α → α → Int`, the stream of `rand()` values as `rs : Nat → Nat`
threaded by a call counter, and `malloc` success as a stream of booleans.
Nullable pointers at the top-level entry points are modelled with `Option`,
and the failure taxonomy of the specification (`InvalidArgument`,
`OutOfMemory`) as an explicit error type.
-/

set_option maxHeartbeats 1000000

namespace MergeQuickSort

/-- Failure taxonomy of the engine: absent sequence/comparator at a
top-level call, or scratch-buffer allocation failure during a merge. -/
inductive SortError where
  | invalidArgument
  | outOfMemory
deriving DecidableEq, Repr

variable {α : Type} [Inhabited α]

/-- C `swap(&base[a], &base[b])`: `temp = *a; *a = *b; *b = temp`.
Exchanges the references stored at indices `a` and `b`. -/
def swap (l : List α) (a b : Nat) : List α :=
  let temp := l.getD a default
  (l.set a (l.getD b default)).set b temp

/-- C `choose_random_pivot(base, low, high)`:
`pivot_index = low + rand() % (high - low + 1)`, then swap it with `high`.
The value drawn from `rand()` is the parameter `r`. -/
def choose_random_pivot (l : List α) (low high : Nat) (r : Nat) : List α :=
  let pivot_index := low + r % (high - low + 1)
  swap l pivot_index high

/-- The scan loop of C `partition`: `for (j = low; j < high; j++)
if (compar(base[j], pivot) < 0) { swap(&base[i], &base[j]); i++; }`.
Returns the array after the scan together with the boundary index `i`. -/
def partitionLoop (cmp : α → α → Int) (pivot : α) (l : List α) (i j high : Nat) :
    List α × Nat :=
  if j < high then
    if cmp (l.getD j default) pivot < 0 then
      partitionLoop cmp pivot (swap l i j) (i + 1) (j + 1) high
    else
      partitionLoop cmp pivot l i (j + 1) high
  else
    (l, i)
termination_by high - j

/-- C `partition(base, low, high, compar)`: pivot is `base[high]`; after the
scan the pivot is swapped into position `i`, which is returned. -/
def partition (cmp : α → α → Int) (l : List α) (low high : Nat) : List α × Nat :=
  let pivot := l.getD high default
  let r := partitionLoop cmp pivot l low low high
  (swap r.1 r.2 high, r.2)

/-! ## Basic lemmas about `swap` -/

@[simp] theorem swap_length (l : List α) (a b : Nat) :
    (swap l a b).length = l.length := by
  simp [swap]

theorem set_getD_self (l : List α) (i : Nat) (h : i < l.length) :
    l.set i (l.getD i default) = l := by
  apply List.ext_getElem?
  intro k
  rcases eq_or_ne i k with rfl | hne
  · simp [List.getElem?_set_self h, List.getD_eq_getElem?_getD,
      List.getElem?_eq_getElem h]
  · simp [List.getElem?_set_ne hne]

theorem swap_self (l : List α) (a : Nat) : swap l a a = l := by
  unfold swap
  rcases Nat.lt_or_ge a l.length with h | h
  · simp only [List.set_set]
    exact set_getD_self l a h
  · simp [List.set_eq_of_length_le h]

theorem swap_getD_left (l : List α) (a b : Nat) (ha : a < l.length)
    (hb : b < l.length) (h : a ≠ b) :
    (swap l a b).getD a default = l.getD b default := by
  unfold swap
  simp [List.getD_eq_getElem?_getD, List.getElem?_set_ne (Ne.symm h),
    List.getElem?_set_self ha]

theorem swap_getD_right (l : List α) (a b : Nat) (hb : b < l.length) :
    (swap l a b).getD b default = l.getD a default := by
  unfold swap
  have hb' : b < (l.set a (l[b]?.getD default)).length := by simpa using hb
  simp [List.getD_eq_getElem?_getD, List.getElem?_set_self hb']

theorem swap_getD_other (l : List α) (a b k : Nat) (ha : k ≠ a) (hb : k ≠ b) :
    (swap l a b).getD k default = l.getD k default := by
  unfold swap
  simp [List.getD_eq_getElem?_getD, List.getElem?_set_ne (Ne.symm hb),
    List.getElem?_set_ne (Ne.symm ha)]

/-- Auxiliary: replacing index `k` by `a` and moving the old entry to the
front is a permutation of putting `a` at the front. -/
theorem getD_cons_set_perm (t : List α) (k : Nat) (a : α) (hk : k < t.length) :
    List.Perm ((t.getD k default) :: t.set k a) (a :: t) := by
  induction t generalizing k with
  | nil => simp at hk
  | cons b s ih =>
    cases k with
    | zero => simpa using List.Perm.swap a b s
    | succ m =>
      have hm : m < s.length := by simpa using hk
      have h1 : List.Perm ((s.getD m default) :: b :: s.set m a)
          (b :: (s.getD m default) :: s.set m a) := List.Perm.swap _ _ _
      have h2 : List.Perm (b :: (s.getD m default) :: s.set m a) (b :: a :: s) :=
        (ih m hm).cons b
      have h3 : List.Perm (b :: a :: s) (a :: b :: s) := List.Perm.swap _ _ _
      simpa [List.getD_cons_succ] using (h1.trans h2).trans h3

/-- `swap` permutes the list (both indices in bounds). -/
theorem swap_perm (l : List α) (a b : Nat) (ha : a < l.length) (hb : b < l.length) :
    List.Perm (swap l a b) l := by
  induction l generalizing a b with
  | nil => simp at ha
  | cons x t ih =>
    match a, b with
    | 0, 0 => rw [swap_self]
    | 0, Nat.succ k =>
      have hk : k < t.length := by simpa using hb
      have heq : swap (x :: t) 0 (k + 1) = (t.getD k default) :: t.set k x := by
        simp [swap, List.getD_cons_succ]
      rw [heq]
      exact getD_cons_set_perm t k x hk
    | Nat.succ m, 0 =>
      have hm : m < t.length := by simpa using ha
      have heq : swap (x :: t) (m + 1) 0 = (t.getD m default) :: t.set m x := by
        simp [swap, List.getD_cons_succ]
      rw [heq]
      exact getD_cons_set_perm t m x hm
    | Nat.succ m, Nat.succ k =>
      have hm : m < t.length := by simpa using ha
      have hk : k < t.length := by simpa using hb
      have heq : swap (x :: t) (m + 1) (k + 1) = x :: swap t m k := by
        simp [swap, List.getD_cons_succ]
      rw [heq]
      exact (ih m k hm hk).cons x

/-! ## Lemmas about the partition scan loop -/

theorem partitionLoop_length (cmp : α → α → Int) (pivot : α) (l : List α)
    (i j high : Nat) :
    ((partitionLoop cmp pivot l i j high).1).length = l.length := by
  induction l, i, j, high using partitionLoop.induct cmp pivot with
  | case1 l i j high h1 h2 ih =>
    rw [partitionLoop, if_pos h1, if_pos h2]; simpa using ih
  | case2 l i j high h1 h2 ih =>
    rw [partitionLoop, if_pos h1, if_neg (by omega)]; exact ih
  | case3 l i j high h1 =>
    rw [partitionLoop, if_neg (by omega)]

theorem partitionLoop_i_le (cmp : α → α → Int) (pivot : α) (l : List α)
    (i j high : Nat) :
    i ≤ (partitionLoop cmp pivot l i j high).2 := by
  induction l, i, j, high using partitionLoop.induct cmp pivot with
  | case1 l i j high h1 h2 ih =>
    rw [partitionLoop, if_pos h1, if_pos h2]; omega
  | case2 l i j high h1 h2 ih =>
    rw [partitionLoop, if_pos h1, if_neg (by omega)]; exact ih
  | case3 l i j high h1 =>
    rw [partitionLoop, if_neg (by omega)]

theorem partitionLoop_snd_le (cmp : α → α → Int) (pivot : α) (l : List α)
    (i j high : Nat) (hij : i ≤ j) (hjh : j ≤ high) :
    (partitionLoop cmp pivot l i j high).2 ≤ high := by
  revert hij hjh
  induction l, i, j, high using partitionLoop.induct cmp pivot with
  | case1 l i j high h1 h2 ih =>
    intro hij hjh
    rw [partitionLoop]; simp only [h1, h2, if_true]
    exact ih (by omega) (by omega)
  | case2 l i j high h1 h2 ih =>
    intro hij hjh
    rw [partitionLoop]; simp only [h1, h2, if_true, if_false]
    exact ih (by omega) (by omega)
  | case3 l i j high h1 =>
    intro hij hjh
    rw [partitionLoop]; simp only [h1, if_false]
    omega

theorem partitionLoop_getD_outside (cmp : α → α → Int) (pivot : α) (l : List α)
    (i j high : Nat) (hij : i ≤ j) :
    ∀ k, k < i ∨ high ≤ k →
      ((partitionLoop cmp pivot l i j high).1).getD k default = l.getD k default := by
  revert hij
  induction l, i, j, high using partitionLoop.induct cmp pivot with
  | case1 l i j high h1 h2 ih =>
    intro hij k hk
    rw [partitionLoop]; simp only [h1, h2, if_true]
    have hstep := ih (by omega) k (by omega)
    rw [hstep, swap_getD_other l i j k (by omega) (by omega)]
  | case2 l i j high h1 h2 ih =>
    intro hij k hk
    rw [partitionLoop]; simp only [h1, h2, if_true, if_false]
    exact ih (by omega) k hk
  | case3 l i j high h1 =>
    intro _ k _
    rw [partitionLoop]; simp [h1]

theorem partitionLoop_perm (cmp : α → α → Int) (pivot : α) (l : List α)
    (i j high : Nat) (hij : i ≤ j) (hhl : high ≤ l.length) :
    List.Perm ((partitionLoop cmp pivot l i j high).1) l := by
  revert hij hhl
  induction l, i, j, high using partitionLoop.induct cmp pivot with
  | case1 l i j high h1 h2 ih =>
    intro hij hhl
    rw [partitionLoop]; simp only [h1, h2, if_true]
    have hswap : List.Perm (swap l i j) l :=
      swap_perm l i j (by omega) (by omega)
    exact (ih (by omega) (by simpa using hhl)).trans hswap
  | case2 l i j high h1 h2 ih =>
    intro hij hhl
    rw [partitionLoop]; simp only [h1, h2, if_true, if_false]
    exact ih (by omega) hhl
  | case3 l i j high h1 =>
    intro _ _
    rw [partitionLoop]; simp [h1]

theorem partitionLoop_spec (cmp : α → α → Int) (pivot : α) (l : List α)
    (low i j high : Nat) (hlow : low ≤ i) (hij : i ≤ j) (hjh : j ≤ high)
    (hhl : high ≤ l.length)
    (H1 : ∀ k, low ≤ k → k < i → cmp (l.getD k default) pivot < 0)
    (H2 : ∀ k, i ≤ k → k < j → ¬ cmp (l.getD k default) pivot < 0) :
    (∀ k, low ≤ k → k < (partitionLoop cmp pivot l i j high).2 →
      cmp (((partitionLoop cmp pivot l i j high).1).getD k default) pivot < 0) ∧
    (∀ k, (partitionLoop cmp pivot l i j high).2 ≤ k → k < high →
      ¬ cmp (((partitionLoop cmp pivot l i j high).1).getD k default) pivot < 0) := by
  revert hlow hij hjh hhl H1 H2
  induction l, i, j, high using partitionLoop.induct cmp pivot with
  | case1 l i j high h1 h2 ih =>
    intro hlow hij hjh hhl H1 H2
    rw [partitionLoop, if_pos h1, if_pos h2]
    have hG1 : ∀ k, low ≤ k → k < i + 1 →
        cmp ((swap l i j).getD k default) pivot < 0 := by
      intro k hk1 hk2
      rcases Nat.lt_or_ge k i with hki | hki
      · rw [swap_getD_other l i j k (by omega) (by omega)]
        exact H1 k hk1 hki
      · have hk : k = i := by omega
        subst hk
        rcases eq_or_ne k j with rfl | hne
        · rw [swap_self]; exact h2
        · rw [swap_getD_left l k j (by omega) (by omega) hne]; exact h2
    have hG2 : ∀ k, i + 1 ≤ k → k < j + 1 →
        ¬ cmp ((swap l i j).getD k default) pivot < 0 := by
      intro k hk1 hk2
      rcases Nat.lt_or_ge k j with hkj | hkj
      · rw [swap_getD_other l i j k (by omega) (by omega)]
        exact H2 k (by omega) hkj
      · have hk : k = j := by omega
        subst hk
        have hilt : i < k := by omega
        rw [swap_getD_right l i k (by omega)]
        exact H2 i (by omega) hilt
    exact ih (by omega) (by omega) (by omega) (by simpa using hhl) hG1 hG2
  | case2 l i j high h1 h2 ih =>
    intro hlow hij hjh hhl H1 H2
    rw [partitionLoop, if_pos h1, if_neg (by omega)]
    apply ih hlow (by omega) (by omega) hhl H1
    intro k hk1 hk2
    rcases Nat.lt_or_ge k j with hkj | hkj
    · exact H2 k hk1 hkj
    · have hk : k = j := by omega
      subst hk
      exact h2
  | case3 l i j high h1 =>
    intro hlow hij hjh hhl H1 H2
    rw [partitionLoop, if_neg (by omega)]
    have hj : j = high := by omega
    subst hj
    exact ⟨H1, H2⟩

/-! ## Postconditions of `partition` -/

theorem partition_eq (cmp : α → α → Int) (l : List α) (low high : Nat) :
    partition cmp l low high =
      (swap (partitionLoop cmp (l.getD high default) l low low high).1
        (partitionLoop cmp (l.getD high default) l low low high).2 high,
       (partitionLoop cmp (l.getD high default) l low low high).2) := rfl

theorem partition_length (cmp : α → α → Int) (l : List α) (low high : Nat) :
    ((partition cmp l low high).1).length = l.length := by
  rw [partition_eq]
  simp [partitionLoop_length]

theorem partition_snd_ge (cmp : α → α → Int) (l : List α) (low high : Nat) :
    low ≤ (partition cmp l low high).2 := by
  rw [partition_eq]
  exact partitionLoop_i_le cmp _ l low low high

theorem partition_snd_le (cmp : α → α → Int) (l : List α) (low high : Nat)
    (hlh : low ≤ high) :
    (partition cmp l low high).2 ≤ high := by
  rw [partition_eq]
  exact partitionLoop_snd_le cmp _ l low low high (le_refl low) hlh

theorem partition_perm (cmp : α → α → Int) (l : List α) (low high : Nat)
    (hlh : low ≤ high) (hhl : high < l.length) :
    List.Perm ((partition cmp l low high).1) l := by
  rw [partition_eq]
  have hloop := partitionLoop_perm cmp (l.getD high default) l low low high
    (le_refl low) (Nat.le_of_lt hhl)
  have hlen := partitionLoop_length cmp (l.getD high default) l low low high
  have hi2 := partitionLoop_snd_le cmp (l.getD high default) l low low high
    (le_refl low) hlh
  have hswap := swap_perm (partitionLoop cmp (l.getD high default) l low low high).1
    (partitionLoop cmp (l.getD high default) l low low high).2 high
    (by omega) (by omega)
  exact hswap.trans hloop

theorem partition_getD_outside (cmp : α → α → Int) (l : List α) (low high : Nat)
    (hlh : low ≤ high) :
    ∀ k, k < low ∨ high < k →
      ((partition cmp l low high).1).getD k default = l.getD k default := by
  intro k hk
  rw [partition_eq]
  have hge := partitionLoop_i_le cmp (l.getD high default) l low low high
  have hle := partitionLoop_snd_le cmp (l.getD high default) l low low high
    (le_refl low) hlh
  rw [swap_getD_other _ _ _ k (by omega) (by omega)]
  exact partitionLoop_getD_outside cmp (l.getD high default) l low low high
    (le_refl low) k (by omega)

theorem partition_getD_pivot (cmp : α → α → Int) (l : List α) (low high : Nat)
    (hlh : low ≤ high) (hhl : high < l.length) :
    ((partition cmp l low high).1).getD (partition cmp l low high).2 default =
      l.getD high default := by
  rw [partition_eq]
  have hge := partitionLoop_i_le cmp (l.getD high default) l low low high
  have hle := partitionLoop_snd_le cmp (l.getD high default) l low low high
    (le_refl low) hlh
  have hlen := partitionLoop_length cmp (l.getD high default) l low low high
  have houtside := partitionLoop_getD_outside cmp (l.getD high default) l low low high
    (le_refl low) high (Or.inr (le_refl high))
  rcases eq_or_ne (partitionLoop cmp (l.getD high default) l low low high).2 high with
    heq | hne
  · rw [heq, swap_self]
    exact houtside
  · rw [swap_getD_left _ _ _ (by omega) (by omega) hne]
    exact houtside

theorem partition_lt_pivot (cmp : α → α → Int) (l : List α) (low high : Nat)
    (hlh : low ≤ high) (hhl : high < l.length) :
    ∀ k, low ≤ k → k < (partition cmp l low high).2 →
      cmp (((partition cmp l low high).1).getD k default) (l.getD high default) < 0 := by
  intro k hk1 hk2
  have hge := partitionLoop_i_le cmp (l.getD high default) l low low high
  have hle := partitionLoop_snd_le cmp (l.getD high default) l low low high
    (le_refl low) hlh
  have hspec := partitionLoop_spec cmp (l.getD high default) l low low low high
    (le_refl low) (le_refl low) hlh (Nat.le_of_lt hhl)
    (fun k hk1 hk2 => absurd (Nat.lt_of_le_of_lt hk1 hk2) (lt_irrefl low))
    (fun k hk1 hk2 => absurd (Nat.lt_of_le_of_lt hk1 hk2) (lt_irrefl low))
  rw [partition_eq] at hk2 ⊢
  simp only at hk2 ⊢
  rw [swap_getD_other _ _ _ k (by omega) (by omega)]
  exact hspec.1 k hk1 hk2

theorem partition_ge_pivot (cmp : α → α → Int) (l : List α) (low high : Nat)
    (hlh : low ≤ high) (hhl : high < l.length) :
    ∀ k, (partition cmp l low high).2 < k → k ≤ high →
      ¬ cmp (((partition cmp l low high).1).getD k default) (l.getD high default) < 0 := by
  intro k hk1 hk2
  have hge := partitionLoop_i_le cmp (l.getD high default) l low low high
  have hle := partitionLoop_snd_le cmp (l.getD high default) l low low high
    (le_refl low) hlh
  have hlen := partitionLoop_length cmp (l.getD high default) l low low high
  have hspec := partitionLoop_spec cmp (l.getD high default) l low low low high
    (le_refl low) (le_refl low) hlh (Nat.le_of_lt hhl)
    (fun k hk1 hk2 => absurd (Nat.lt_of_le_of_lt hk1 hk2) (lt_irrefl low))
    (fun k hk1 hk2 => absurd (Nat.lt_of_le_of_lt hk1 hk2) (lt_irrefl low))
  rw [partition_eq] at hk1 ⊢
  simp only at hk1 ⊢
  rcases Nat.lt_or_ge k high with hkh | hkh
  · rw [swap_getD_other _ _ _ k (by omega) (by omega)]
    exact hspec.2 k (by omega) hkh
  · have hk : k = high := by omega
    subst hk
    rw [swap_getD_right _ _ _ (by omega)]
    exact hspec.2 _ (le_refl _) (by omega)

/-! ## Slices of a list (the sub-range `[low, high]` of the array) -/

/-- The contents of the closed index range `[low, high]` of the array. -/
def slice (l : List α) (low high : Nat) : List α :=
  (l.drop low).take (high + 1 - low)

theorem slice_decomposition (l : List α) (low high : Nat) (hlh : low ≤ high + 1) :
    l = l.take low ++ slice l low high ++ l.drop (high + 1) := by
  unfold slice
  have h1 : l.drop low = (l.drop low).take (high + 1 - low) ++
      (l.drop low).drop (high + 1 - low) := (List.take_append_drop _ _).symm
  have h2 : (l.drop low).drop (high + 1 - low) = l.drop (high + 1) := by
    rw [List.drop_drop]
    congr 1
    omega
  calc l = l.take low ++ l.drop low := (List.take_append_drop _ _).symm
    _ = l.take low ++ ((l.drop low).take (high + 1 - low) ++ l.drop (high + 1)) := by
        rw [← h2, ← h1]
    _ = l.take low ++ (l.drop low).take (high + 1 - low) ++ l.drop (high + 1) := by
        rw [List.append_assoc]

/-- Two equal-length lists permuting each other and agreeing outside
`[low, high]` have permuting slices `[low, high]`. -/
theorem slice_perm_of_perm_outside (l l' : List α) (low high : Nat)
    (hlh : low ≤ high) (hhl : high < l.length)
    (hlen : l'.length = l.length)
    (hperm : List.Perm l' l)
    (houtside : ∀ k, k < low ∨ high < k → l'.getD k default = l.getD k default) :
    List.Perm (slice l' low high) (slice l low high) := by
  have htake : l'.take low = l.take low := by
    apply List.ext_getElem (by simp [hlen])
    intro k h1 h2
    have hk : k < low := by simp at h1; omega
    have hkl : k < l.length := by omega
    have hkl' : k < l'.length := by omega
    have := houtside k (Or.inl hk)
    simp only [List.getD_eq_getElem?_getD, List.getElem?_eq_getElem hkl,
      List.getElem?_eq_getElem hkl'] at this
    simpa using this
  have hdrop : l'.drop (high + 1) = l.drop (high + 1) := by
    apply List.ext_getElem (by simp [hlen])
    intro k h1 h2
    have hkl : high + 1 + k < l.length := by simp at h2; omega
    have hkl' : high + 1 + k < l'.length := by omega
    have := houtside (high + 1 + k) (Or.inr (by omega))
    simp only [List.getD_eq_getElem?_getD, List.getElem?_eq_getElem hkl,
      List.getElem?_eq_getElem hkl'] at this
    simpa using this
  have hd' := slice_decomposition l' low high (by omega)
  have hd := slice_decomposition l low high (by omega)
  rw [hd', hd, htake, hdrop] at hperm
  rw [List.append_assoc, List.append_assoc] at hperm
  have h1 := (List.perm_append_left_iff (l.take low)).mp hperm
  exact (List.perm_append_right_iff (l.drop (high + 1))).mp h1

/-! ## Slice membership -/

theorem getD_mem_slice (l : List α) (low high k : Nat) (h1 : low ≤ k)
    (h2 : k ≤ high) (hhl : k < l.length) :
    l.getD k default ∈ slice l low high := by
  unfold slice
  have hlen : k - low < ((l.drop low).take (high + 1 - low)).length := by
    simp
    omega
  have hval : ((l.drop low).take (high + 1 - low))[k - low] = l.getD k default := by
    rw [List.getElem_take, List.getElem_drop]
    have hk : low + (k - low) = k := by omega
    simp [hk, List.getD_eq_getElem?_getD, List.getElem?_eq_getElem hhl]
  exact hval ▸ List.getElem_mem hlen

theorem mem_slice_getD (l : List α) (low high : Nat) (x : α)
    (hx : x ∈ slice l low high) :
    ∃ k, low ≤ k ∧ k ≤ high ∧ k < l.length ∧ x = l.getD k default := by
  unfold slice at hx
  obtain ⟨m, hm, hget⟩ := List.getElem_of_mem hx
  have hm' : m < high + 1 - low ∧ m < l.length - low := by
    have h := hm
    simp at h
    exact ⟨h.1, h.2⟩
  have hlen : low + m < l.length := by omega
  refine ⟨low + m, by omega, by omega, hlen, ?_⟩
  rw [List.getElem_take, List.getElem_drop] at hget
  simp [List.getD_eq_getElem?_getD, List.getElem?_eq_getElem hlen, ← hget]

/-! ## Comparator validity: a comparator defining a total preorder -/

/-- A comparator defines a total preorder when its sign is antisymmetric
(`x` strictly precedes `y` iff `y` strictly follows `x`) and the induced
`≤` relation (`cmp x y ≤ 0`) is transitive.  This is the spec's
"signed integer consistent with a total preorder". -/
structure ValidCmp (cmp : α → α → Int) : Prop where
  sign : ∀ x y, cmp x y < 0 ↔ 0 < cmp y x
  le_trans : ∀ x y z, cmp x y ≤ 0 → cmp y z ≤ 0 → cmp x z ≤ 0

theorem ValidCmp.refl_le {cmp : α → α → Int} (h : ValidCmp cmp) (x : α) :
    cmp x x ≤ 0 := by
  by_contra hc
  have h1 : 0 < cmp x x := by omega
  have h2 : cmp x x < 0 := (h.sign x x).mpr h1
  omega

theorem ValidCmp.le_total {cmp : α → α → Int} (h : ValidCmp cmp) (x y : α) :
    cmp x y ≤ 0 ∨ cmp y x ≤ 0 := by
  by_contra hc
  push_neg at hc
  have h1 : cmp y x < 0 := (h.sign y x).mpr (by omega)
  omega

theorem ValidCmp.le_of_ge {cmp : α → α → Int} (h : ValidCmp cmp) {x y : α}
    (hge : 0 ≤ cmp x y) : cmp y x ≤ 0 := by
  by_contra hc
  have h1 : cmp x y < 0 := (h.sign x y).mpr (by omega)
  omega

/-! ## The quicksort driver -/

/-- C `quick_sort_rec(base, low, high, compar)`:
if `low < high`, choose a random pivot, partition, recurse on `[low, pi-1]`
guarded by `pi > 0`, then on `[pi+1, high]`.  The sequential `rand()` state
is modelled by the stream `rs` and the call counter `t` (one draw per
pivot choice); the function returns the array and the updated counter. -/
def quick_sort_rec (cmp : α → α → Int) (rs : Nat → Nat) (l : List α)
    (low high t : Nat) : List α × Nat :=
  if low < high then
    let l1 := choose_random_pivot l low high (rs t)
    let p := partition cmp l1 low high
    let left := if 0 < p.2 then quick_sort_rec cmp rs p.1 low (p.2 - 1) (t + 1)
                else (p.1, t + 1)
    quick_sort_rec cmp rs left.1 (p.2 + 1) high left.2
  else
    (l, t)
termination_by high - low
decreasing_by
  · have h1 := partition_snd_le cmp (choose_random_pivot l low high (rs t)) low high
      (by omega)
    omega
  · have h1 := partition_snd_ge cmp (choose_random_pivot l low high (rs t)) low high
    omega

/-- C `quick_sort(base, nitems, compar)`: rejects a null array or comparator
without touching the array (the spec's `InvalidArgument`); otherwise, when
`nitems > 0`, seeds the random source and sorts `[0, nitems-1]`. -/
def quick_sort (cmp? : Option (α → α → Int)) (rs : Nat → Nat)
    (base? : Option (List α)) (nitems : Nat) :
    Option (List α) × Option SortError :=
  match base?, cmp? with
  | none, _ => (base?, some SortError.invalidArgument)
  | some _, none => (base?, some SortError.invalidArgument)
  | some l, some cmp =>
    if 0 < nitems then
      (some (quick_sort_rec cmp rs l 0 (nitems - 1) 0).1, none)
    else
      (some l, none)

theorem quick_sort_rec_base (cmp : α → α → Int) (rs : Nat → Nat) (l : List α)
    (low high t : Nat) (h : ¬ low < high) :
    quick_sort_rec cmp rs l low high t = (l, t) := by
  rw [quick_sort_rec, if_neg h]

theorem quick_sort_rec_step (cmp : α → α → Int) (rs : Nat → Nat) (l : List α)
    (low high t : Nat) (h : low < high) :
    quick_sort_rec cmp rs l low high t =
      quick_sort_rec cmp rs
        (if 0 < (partition cmp (choose_random_pivot l low high (rs t)) low high).2 then
            quick_sort_rec cmp rs
              (partition cmp (choose_random_pivot l low high (rs t)) low high).1
              low ((partition cmp (choose_random_pivot l low high (rs t)) low high).2 - 1)
              (t + 1)
          else ((partition cmp (choose_random_pivot l low high (rs t)) low high).1, t + 1)).1
        ((partition cmp (choose_random_pivot l low high (rs t)) low high).2 + 1) high
        (if 0 < (partition cmp (choose_random_pivot l low high (rs t)) low high).2 then
            quick_sort_rec cmp rs
              (partition cmp (choose_random_pivot l low high (rs t)) low high).1
              low ((partition cmp (choose_random_pivot l low high (rs t)) low high).2 - 1)
              (t + 1)
          else ((partition cmp (choose_random_pivot l low high (rs t)) low high).1, t + 1)).2 := by
  rw [quick_sort_rec, if_pos h]

/-- Main correctness of the quicksort recursion, by induction on a bound `d`
on the range size: the result has the same length, is untouched outside
`[low, high]`, permutes the input, and is pairwise non-decreasing under the
comparator on `[low, high]`. -/
theorem quick_sort_rec_correct (cmp : α → α → Int) (hv : ValidCmp cmp)
    (rs : Nat → Nat) :
    ∀ d l low high t, high - low ≤ d → high < l.length →
      ((quick_sort_rec cmp rs l low high t).1.length = l.length) ∧
      (∀ k, k < low ∨ high < k →
        (quick_sort_rec cmp rs l low high t).1.getD k default = l.getD k default) ∧
      (List.Perm (quick_sort_rec cmp rs l low high t).1 l) ∧
      (∀ j k, low ≤ j → j ≤ k → k ≤ high →
        cmp ((quick_sort_rec cmp rs l low high t).1.getD j default)
            ((quick_sort_rec cmp rs l low high t).1.getD k default) ≤ 0) := by
  intro d
  induction d with
  | zero =>
    intro l low high t hd hhl
    rw [quick_sort_rec_base cmp rs l low high t (by omega)]
    refine ⟨rfl, fun k _ => rfl, List.Perm.refl l, ?_⟩
    intro j k hj hjk hk
    have hjke : j = k := by omega
    subst hjke
    exact hv.refl_le _
  | succ d ih =>
    intro l low high t hd hhl
    by_cases hlow : low < high
    case neg =>
      rw [quick_sort_rec_base cmp rs l low high t hlow]
      refine ⟨rfl, fun k _ => rfl, List.Perm.refl l, ?_⟩
      intro j k hj hjk hk
      have hjke : j = k := by omega
      subst hjke
      exact hv.refl_le _
    case pos =>
    rw [quick_sort_rec_step cmp rs l low high t hlow]
    set l1 := choose_random_pivot l low high (rs t) with hl1
    set p := partition cmp l1 low high with hp
    set pv := l1.getD high default with hpv
    -- facts about the pivot-choice swap
    have hpidx : low + rs t % (high - low + 1) ≤ high := by
      have := Nat.mod_lt (rs t) (show 0 < high - low + 1 by omega)
      omega
    have hl1len : l1.length = l.length := by
      rw [hl1]; simp [choose_random_pivot]
    have hl1perm : List.Perm l1 l := by
      rw [hl1]; simp only [choose_random_pivot]
      exact swap_perm l _ high (by omega) (by omega)
    have hl1out : ∀ k, k < low ∨ high < k → l1.getD k default = l.getD k default := by
      intro k hk
      rw [hl1]; simp only [choose_random_pivot]
      exact swap_getD_other l _ high k (by omega) (by omega)
    -- facts about the partition
    have hhl1 : high < l1.length := by omega
    have hplen : p.1.length = l.length := by
      rw [hp, partition_length]; omega
    have hpperm : List.Perm p.1 l1 := by
      rw [hp]; exact partition_perm cmp l1 low high (by omega) hhl1
    have hpout : ∀ k, k < low ∨ high < k → p.1.getD k default = l1.getD k default := by
      rw [hp]; exact partition_getD_outside cmp l1 low high (by omega)
    have hpge : low ≤ p.2 := by rw [hp]; exact partition_snd_ge cmp l1 low high
    have hple : p.2 ≤ high := by
      rw [hp]; exact partition_snd_le cmp l1 low high (by omega)
    have hppiv : p.1.getD p.2 default = pv := by
      rw [hp, hpv]; exact partition_getD_pivot cmp l1 low high (by omega) hhl1
    have hplt : ∀ k, low ≤ k → k < p.2 → cmp (p.1.getD k default) pv < 0 := by
      rw [hp, hpv]; exact partition_lt_pivot cmp l1 low high (by omega) hhl1
    have hpge2 : ∀ k, p.2 < k → k ≤ high → ¬ cmp (p.1.getD k default) pv < 0 := by
      rw [hp, hpv]; exact partition_ge_pivot cmp l1 low high (by omega) hhl1
    set L := (if 0 < p.2 then quick_sort_rec cmp rs p.1 low (p.2 - 1) (t + 1)
              else (p.1, t + 1)) with hL
    -- facts about the left recursive call
    have HL : L.1.length = p.1.length ∧ List.Perm L.1 p.1 ∧
        (∀ k, k < low ∨ p.2 ≤ k → L.1.getD k default = p.1.getD k default) ∧
        (∀ k, low ≤ k → k < p.2 → cmp (L.1.getD k default) pv < 0) ∧
        (∀ j k, low ≤ j → j ≤ k → k < p.2 →
          cmp (L.1.getD j default) (L.1.getD k default) ≤ 0) := by
      by_cases hp2 : 0 < p.2
      · rw [hL, if_pos hp2]
        obtain ⟨ha, hb, hc, hsort⟩ := ih p.1 low (p.2 - 1) (t + 1)
          (by omega) (by omega)
        refine ⟨ha, hc, ?_, ?_, ?_⟩
        · intro k hk
          exact hb k (by omega)
        · intro k hk1 hk2
          have hkl : k < (quick_sort_rec cmp rs p.1 low (p.2 - 1) (t + 1)).1.length := by
            omega
          have hmem := getD_mem_slice (quick_sort_rec cmp rs p.1 low (p.2 - 1) (t + 1)).1
            low (p.2 - 1) k hk1 (by omega) hkl
          have hsp := slice_perm_of_perm_outside p.1
            (quick_sort_rec cmp rs p.1 low (p.2 - 1) (t + 1)).1 low (p.2 - 1)
            (by omega) (by omega) ha hc (fun k hk => hb k hk)
          have hmem2 := (hsp.mem_iff).mp hmem
          obtain ⟨k2, hk21, hk22, hk2len, hx⟩ := mem_slice_getD p.1 low (p.2 - 1) _ hmem2
          rw [hx]
          exact hplt k2 hk21 (by omega)
        · intro j k hj hjk hk
          exact hsort j k hj hjk (by omega)
      · rw [hL, if_neg hp2]
        refine ⟨rfl, List.Perm.refl _, fun k _ => rfl, ?_, ?_⟩
        · intro k hk1 hk2
          omega
        · intro j k hj hjk hk
          omega
    obtain ⟨hLlen, hLperm, hLout, hLlt, hLsort⟩ := HL
    have hLpv : L.1.getD p.2 default = pv :=
      (hLout p.2 (Or.inr (le_refl _))).trans hppiv
    have hLge : ∀ k, p.2 < k → k ≤ high → ¬ cmp (L.1.getD k default) pv < 0 := by
      intro k h1 h2
      rw [hLout k (Or.inr (by omega))]
      exact hpge2 k h1 h2
    -- the right recursive call
    obtain ⟨ra, rb, rc, rsort⟩ := ih L.1 (p.2 + 1) high L.2 (by omega) (by omega)
    set R := quick_sort_rec cmp rs L.1 (p.2 + 1) high L.2 with hR
    have hRlen : R.1.length = l.length := by omega
    have hRpv : R.1.getD p.2 default = pv :=
      (rb p.2 (Or.inl (by omega))).trans hLpv
    have hRlt : ∀ k, low ≤ k → k < p.2 → cmp (R.1.getD k default) pv < 0 := by
      intro k h1 h2
      rw [rb k (Or.inl (by omega))]
      exact hLlt k h1 h2
    have hRge : ∀ k, p.2 < k → k ≤ high → ¬ cmp (R.1.getD k default) pv < 0 := by
      intro k h1 h2
      have hkR : k < R.1.length := by omega
      have hmem := getD_mem_slice R.1 (p.2 + 1) high k (by omega) h2 hkR
      have hsp := slice_perm_of_perm_outside L.1 R.1 (p.2 + 1) high
        (by omega) (by omega) ra rc (fun k hk => rb k hk)
      have hmem2 := (hsp.mem_iff).mp hmem
      obtain ⟨k2, hk21, hk22, hk2len, hx⟩ := mem_slice_getD L.1 (p.2 + 1) high _ hmem2
      rw [hx]
      exact hLge k2 (by omega) hk22
    refine ⟨hRlen, ?_, ?_, ?_⟩
    · -- untouched outside [low, high]
      intro k hk
      have h1 : R.1.getD k default = L.1.getD k default := by
        rcases hk with hk | hk
        · exact rb k (Or.inl (by omega))
        · exact rb k (Or.inr hk)
      have h2 : L.1.getD k default = p.1.getD k default := by
        rcases hk with hk | hk
        · exact hLout k (Or.inl hk)
        · exact hLout k (Or.inr (by omega))
      rw [h1, h2, hpout k hk, hl1out k hk]
    · -- permutation of the input
      exact rc.trans (hLperm.trans (hpperm.trans hl1perm))
    · -- pairwise non-decreasing on [low, high]
      intro j k hj hjk hk
      rcases Nat.lt_or_ge j p.2 with hjp | hjp
      · rcases Nat.lt_or_ge k p.2 with hkp | hkp
        · -- both in the left part
          rw [rb j (Or.inl (by omega)), rb k (Or.inl (by omega))]
          exact hLsort j k hj hjk hkp
        · rcases eq_or_ne k p.2 with rfl | hkne
          · -- j left of pivot, k at pivot
            rw [hRpv]
            exact le_of_lt (hRlt j hj hjp)
          · -- j left of pivot, k right of pivot
            have h1 : cmp (R.1.getD j default) pv ≤ 0 := le_of_lt (hRlt j hj hjp)
            have h2 : ¬ cmp (R.1.getD k default) pv < 0 := hRge k (by omega) hk
            have h3 : cmp pv (R.1.getD k default) ≤ 0 := hv.le_of_ge (by omega)
            exact hv.le_trans _ _ _ h1 h3
      · rcases eq_or_ne j p.2 with hjp2 | hjne
        · rcases eq_or_ne k p.2 with hkp2 | hkne
          · rw [hjp2, hkp2]
            exact hv.refl_le _
          · -- j at pivot, k right of pivot
            rw [hjp2, hRpv]
            have h2 : ¬ cmp (R.1.getD k default) pv < 0 := hRge k (by omega) hk
            exact hv.le_of_ge (by omega)
        · -- both in the right part
          exact rsort j k (by omega) hjk hk

/-! ## The merge primitive and the mergesort driver -/

/-- The cursor walk of C `merge`: while both sub-ranges are non-empty copy
into the scratch buffer the element that compares `<=` (ties take the left
sub-range); when one side is exhausted drain the other. -/
def mergeLoop (cmp : α → α → Int) : List α → List α → List α
  | [], ys => ys
  | x :: xs, [] => x :: xs
  | x :: xs, y :: ys =>
    if cmp x y ≤ 0 then
      x :: mergeLoop cmp xs (y :: ys)
    else
      y :: mergeLoop cmp (x :: xs) ys
termination_by xs ys => xs.length + ys.length

/-- C `merge(base, nitems, middle_i, compar)` with the scratch-buffer
allocation outcome made explicit.  On allocation failure the original code
exits the process before mutating the array (modelled as returning the
array unchanged together with `OutOfMemory`, the propagated-failure form
the specification asks of a reimplementation); on success the scratch
buffer filled by the cursor walk over `[0, middle_i)` and
`[middle_i, nitems)` is copied back over the range. -/
def merge (cmp : α → α → Int) (allocOk : Bool) (l : List α) (middle_i : Nat) :
    List α × Option SortError :=
  if allocOk then
    (mergeLoop cmp (l.take middle_i) (l.drop middle_i), none)
  else
    (l, some SortError.outOfMemory)

/-- C `merge_sort_rec(base, nitems, compar)` on the path where every
allocation succeeds: if `nitems > 1`, recursively sort the halves
`[0, middle_i)` and `[middle_i, nitems)` (leaving the array as their
concatenation) and merge them. -/
def merge_sort_rec (cmp : α → α → Int) (l : List α) : List α :=
  if 1 < l.length then
    (merge cmp true
      (merge_sort_rec cmp (l.take (l.length / 2)) ++
        merge_sort_rec cmp (l.drop (l.length / 2)))
      (l.length / 2)).1
  else l
termination_by l.length
decreasing_by
  · simp only [List.length_take]
    omega
  · simp only [List.length_drop]
    omega

/-- C `merge_sort(base, nitems, compar)`: rejects a null array or comparator
without touching the array (the spec's `InvalidArgument`); otherwise sorts
when `nitems >= 2`. -/
def merge_sort (cmp? : Option (α → α → Int)) (base? : Option (List α))
    (nitems : Nat) : Option (List α) × Option SortError :=
  match base?, cmp? with
  | none, _ => (base?, some SortError.invalidArgument)
  | some _, none => (base?, some SortError.invalidArgument)
  | some l, some cmp =>
    if 2 ≤ nitems then
      (some (merge_sort_rec cmp l), none)
    else
      (some l, none)

/-- Allocation-aware mergesort recursion: threads a stream of allocation
outcomes (one draw per merge step, counted by `t`) and propagates the
first `OutOfMemory` failure to its caller. -/
def merge_sort_recE (cmp : α → α → Int) (alloc : Nat → Bool) (l : List α)
    (t : Nat) : Except SortError (List α) × Nat :=
  if 1 < l.length then
    match merge_sort_recE cmp alloc (l.take (l.length / 2)) t with
    | (Except.error e, t1) => (Except.error e, t1)
    | (Except.ok left, t1) =>
      match merge_sort_recE cmp alloc (l.drop (l.length / 2)) t1 with
      | (Except.error e, t2) => (Except.error e, t2)
      | (Except.ok right, t2) =>
        match merge cmp (alloc t2) (left ++ right) (l.length / 2) with
        | (res, none) => (Except.ok res, t2 + 1)
        | (_, some e) => (Except.error e, t2 + 1)
  else (Except.ok l, t)
termination_by l.length
decreasing_by
  · simp only [List.length_take]
    omega
  · simp only [List.length_drop]
    omega

/-! ## Lemmas about `mergeLoop` -/

theorem mergeLoop_perm (cmp : α → α → Int) :
    ∀ xs ys : List α, List.Perm (mergeLoop cmp xs ys) (xs ++ ys) := by
  intro xs ys
  induction xs, ys using mergeLoop.induct cmp with
  | case1 ys => rw [mergeLoop]; simp
  | case2 x xs => rw [mergeLoop]; simp
  | case3 x xs y ys h ih =>
    rw [mergeLoop, if_pos h]
    exact ih.cons x
  | case4 x xs y ys h ih =>
    rw [mergeLoop, if_neg h]
    exact (ih.cons y).trans (List.perm_middle).symm

theorem mergeLoop_length (cmp : α → α → Int) (xs ys : List α) :
    (mergeLoop cmp xs ys).length = xs.length + ys.length := by
  have h := (mergeLoop_perm cmp xs ys).length_eq
  simpa using h

theorem mergeLoop_pairwise (cmp : α → α → Int) (hv : ValidCmp cmp) :
    ∀ xs ys : List α,
      List.Pairwise (fun a b => cmp a b ≤ 0) xs →
      List.Pairwise (fun a b => cmp a b ≤ 0) ys →
      List.Pairwise (fun a b => cmp a b ≤ 0) (mergeLoop cmp xs ys) := by
  intro xs ys
  induction xs, ys using mergeLoop.induct cmp with
  | case1 ys => intro _ hys; rw [mergeLoop]; exact hys
  | case2 x xs => intro hxs _; rw [mergeLoop]; exact hxs
  | case3 x xs y ys h ih =>
    intro hxs hys
    rw [mergeLoop, if_pos h]
    rw [List.pairwise_cons] at hxs ⊢
    refine ⟨?_, ih hxs.2 hys⟩
    intro z hz
    have hz2 := (mergeLoop_perm cmp xs (y :: ys)).mem_iff.mp hz
    rw [List.mem_append] at hz2
    rcases hz2 with hz2 | hz2
    · exact hxs.1 z hz2
    · rcases List.mem_cons.mp hz2 with rfl | hz3
      · exact h
      · rw [List.pairwise_cons] at hys
        exact hv.le_trans _ _ _ h (hys.1 z hz3)
  | case4 x xs y ys h ih =>
    intro hxs hys
    rw [mergeLoop, if_neg h]
    rw [List.pairwise_cons] at hys ⊢
    have hyx : cmp y x < 0 := (hv.sign y x).mpr (by omega)
    refine ⟨?_, ih hxs hys.2⟩
    intro z hz
    have hz2 := (mergeLoop_perm cmp (x :: xs) ys).mem_iff.mp hz
    rw [List.mem_append] at hz2
    rcases hz2 with hz2 | hz2
    · rcases List.mem_cons.mp hz2 with rfl | hz3
      · exact le_of_lt hyx
      · rw [List.pairwise_cons] at hxs
        exact hv.le_trans _ _ _ (le_of_lt hyx) (hxs.1 z hz3)
    · exact hys.1 z hz2

/-! ## Lemmas about `merge_sort_rec` -/

theorem merge_sort_rec_length (cmp : α → α → Int) :
    ∀ l : List α, (merge_sort_rec cmp l).length = l.length := by
  intro l
  induction l using merge_sort_rec.induct cmp with
  | case1 l h ih1 ih2 =>
    rw [merge_sort_rec, if_pos h]
    simp only [merge, if_true]
    rw [mergeLoop_length]
    simp only [List.length_take, List.length_drop, List.length_append, ih1, ih2]
    omega
  | case2 l h =>
    rw [merge_sort_rec, if_neg h]

theorem merge_sort_rec_step (cmp : α → α → Int) (l : List α) (h : 1 < l.length) :
    merge_sort_rec cmp l =
      mergeLoop cmp (merge_sort_rec cmp (l.take (l.length / 2)))
        (merge_sort_rec cmp (l.drop (l.length / 2))) := by
  rw [merge_sort_rec, if_pos h]
  simp only [merge, if_true]
  have hlen : (merge_sort_rec cmp (l.take (l.length / 2))).length = l.length / 2 := by
    rw [merge_sort_rec_length]
    simp only [List.length_take]
    omega
  rw [List.take_left' hlen, List.drop_left' hlen]

theorem merge_sort_rec_base (cmp : α → α → Int) (l : List α)
    (h : ¬ 1 < l.length) : merge_sort_rec cmp l = l := by
  rw [merge_sort_rec, if_neg h]

theorem merge_sort_rec_perm (cmp : α → α → Int) :
    ∀ l : List α, List.Perm (merge_sort_rec cmp l) l := by
  intro l
  induction l using merge_sort_rec.induct cmp with
  | case1 l h ih1 ih2 =>
    rw [merge_sort_rec_step cmp l h]
    have h1 := mergeLoop_perm cmp (merge_sort_rec cmp (l.take (l.length / 2)))
      (merge_sort_rec cmp (l.drop (l.length / 2)))
    have h2 := ih1.append ih2
    have h3 : List.Perm (l.take (l.length / 2) ++ l.drop (l.length / 2)) l := by
      rw [List.take_append_drop]
    exact (h1.trans h2).trans h3
  | case2 l h =>
    rw [merge_sort_rec_base cmp l h]

theorem merge_sort_rec_pairwise (cmp : α → α → Int) (hv : ValidCmp cmp) :
    ∀ l : List α,
      List.Pairwise (fun a b => cmp a b ≤ 0) (merge_sort_rec cmp l) := by
  intro l
  induction l using merge_sort_rec.induct cmp with
  | case1 l h ih1 ih2 =>
    rw [merge_sort_rec_step cmp l h]
    exact mergeLoop_pairwise cmp hv _ _ ih1 ih2
  | case2 l h =>
    rw [merge_sort_rec_base cmp l h]
    rcases l with _ | ⟨a, _ | ⟨b, t⟩⟩
    · exact List.Pairwise.nil
    · simp
    · simp at h

/-! ## Stability of the merge and of the mergesort driver

Stability is stated on index-tagged elements: the comparator only looks at
the payload, and the tag records the element's position in the original
sequence. -/

theorem ValidCmp.lt_of_lt_of_le {cmp : α → α → Int} (h : ValidCmp cmp)
    {x y z : α} (h1 : cmp x y < 0) (h2 : cmp y z ≤ 0) : cmp x z < 0 := by
  by_contra hc
  have h3 : cmp z x ≤ 0 := h.le_of_ge (by omega)
  have h4 : cmp y x ≤ 0 := h.le_trans y z x h2 h3
  have h5 : 0 < cmp y x := (h.sign x y).mp h1
  omega

/-- Stable order on index-tagged elements: strictly smaller under the
comparator, or tied with the original (input) index strictly smaller. -/
def StableLE (cmp : α → α → Int) (p q : Nat × α) : Prop :=
  cmp p.2 q.2 < 0 ∨ (cmp p.2 q.2 ≤ 0 ∧ p.1 < q.1)

theorem StableLE.le {cmp : α → α → Int} {p q : Nat × α}
    (h : StableLE cmp p q) : cmp p.2 q.2 ≤ 0 := by
  rcases h with h | h
  · omega
  · exact h.1

theorem mergeLoop_stable (cmp : α → α → Int) (hv : ValidCmp cmp) :
    ∀ xs ys : List (Nat × α),
      List.Pairwise (StableLE cmp) xs →
      List.Pairwise (StableLE cmp) ys →
      (∀ p ∈ xs, ∀ q ∈ ys, p.1 < q.1) →
      List.Pairwise (StableLE cmp) (mergeLoop (fun p q => cmp p.2 q.2) xs ys) := by
  intro xs ys
  induction xs, ys using mergeLoop.induct (fun p q : Nat × α => cmp p.2 q.2) with
  | case1 ys =>
    intro _ hys _
    rw [mergeLoop]
    exact hys
  | case2 x xs =>
    intro hxs _ _
    rw [mergeLoop]
    exact hxs
  | case3 x xs y ys h ih =>
    intro hxs hys hcross
    rw [mergeLoop, if_pos h]
    rw [List.pairwise_cons] at hxs ⊢
    refine ⟨?_, ih hxs.2 hys ?_⟩
    · intro z hz
      have hz2 := (mergeLoop_perm _ xs (y :: ys)).mem_iff.mp hz
      rw [List.mem_append] at hz2
      rcases hz2 with hz2 | hz2
      · exact hxs.1 z hz2
      · rcases List.mem_cons.mp hz2 with rfl | hz3
        · exact Or.inr ⟨h, hcross x (List.mem_cons_self x xs) z
            (List.mem_cons_self z ys)⟩
        · rw [List.pairwise_cons] at hys
          refine Or.inr ⟨hv.le_trans _ _ _ h (hys.1 z hz3).le, ?_⟩
          exact hcross x (List.mem_cons_self x xs) z (List.mem_cons_of_mem y hz3)
    · intro p hp q hq
      exact hcross p (List.mem_cons_of_mem x hp) q hq
  | case4 x xs y ys h ih =>
    intro hxs hys hcross
    rw [mergeLoop, if_neg h]
    rw [List.pairwise_cons] at hys ⊢
    have hyx : cmp y.2 x.2 < 0 := (hv.sign y.2 x.2).mpr (by omega)
    refine ⟨?_, ih hxs hys.2 ?_⟩
    · intro z hz
      have hz2 := (mergeLoop_perm _ (x :: xs) ys).mem_iff.mp hz
      rw [List.mem_append] at hz2
      rcases hz2 with hz2 | hz2
      · rcases List.mem_cons.mp hz2 with rfl | hz3
        · exact Or.inl hyx
        · rw [List.pairwise_cons] at hxs
          exact Or.inl (hv.lt_of_lt_of_le hyx (hxs.1 z hz3).le)
      · exact hys.1 z hz2
    · intro p hp q hq
      exact hcross p hp q (List.mem_cons_of_mem y hq)

theorem merge_sort_rec_stable (cmp : α → α → Int) (hv : ValidCmp cmp) :
    ∀ l : List (Nat × α),
      List.Pairwise (fun p q : Nat × α => p.1 < q.1) l →
      List.Pairwise (StableLE cmp)
        (merge_sort_rec (fun p q => cmp p.2 q.2) l) := by
  intro l
  induction l using merge_sort_rec.induct (fun p q : Nat × α => cmp p.2 q.2) with
  | case1 l h ih1 ih2 =>
    intro hidx
    rw [merge_sort_rec_step _ l h]
    have hidx1 : List.Pairwise (fun p q : Nat × α => p.1 < q.1)
        (l.take (l.length / 2)) := hidx.sublist (List.take_sublist _ _)
    have hidx2 : List.Pairwise (fun p q : Nat × α => p.1 < q.1)
        (l.drop (l.length / 2)) := hidx.sublist (List.drop_sublist _ _)
    apply mergeLoop_stable cmp hv _ _ (ih1 hidx1) (ih2 hidx2)
    intro p hp q hq
    have hp2 := (merge_sort_rec_perm _ (l.take (l.length / 2))).mem_iff.mp hp
    have hq2 := (merge_sort_rec_perm _ (l.drop (l.length / 2))).mem_iff.mp hq
    have hsplit := hidx
    rw [← List.take_append_drop (l.length / 2) l] at hsplit
    exact (List.pairwise_append.mp hsplit).2.2 p hp2 q hq2
  | case2 l h =>
    intro hidx
    rw [merge_sort_rec_base _ l h]
    rcases l with _ | ⟨a, _ | ⟨b, t⟩⟩
    · exact List.Pairwise.nil
    · simp
    · simp at h

/-! ## Fuel-indexed variants: the recursions reach their base cases -/

/-- `quick_sort_rec` with an explicit recursion budget: `none` means the
budget was exhausted before every range collapsed to size `<= 1`. -/
def quick_sort_rec_fuel (cmp : α → α → Int) (rs : Nat → Nat) :
    Nat → List α → Nat → Nat → Nat → Option (List α × Nat)
  | 0, _, _, _, _ => none
  | fuel + 1, l, low, high, t =>
    if low < high then
      match (if 0 < (partition cmp (choose_random_pivot l low high (rs t)) low high).2 then
              quick_sort_rec_fuel cmp rs fuel
                (partition cmp (choose_random_pivot l low high (rs t)) low high).1 low
                ((partition cmp (choose_random_pivot l low high (rs t)) low high).2 - 1)
                (t + 1)
             else
              some ((partition cmp (choose_random_pivot l low high (rs t)) low high).1,
                t + 1)) with
      | none => none
      | some left =>
        quick_sort_rec_fuel cmp rs fuel left.1
          ((partition cmp (choose_random_pivot l low high (rs t)) low high).2 + 1)
          high left.2
    else
      some (l, t)

/-- `merge_sort_rec` with an explicit recursion budget. -/
def merge_sort_rec_fuel (cmp : α → α → Int) :
    Nat → List α → Option (List α)
  | 0, _ => none
  | fuel + 1, l =>
    if 1 < l.length then
      match merge_sort_rec_fuel cmp fuel (l.take (l.length / 2)) with
      | none => none
      | some left =>
        match merge_sort_rec_fuel cmp fuel (l.drop (l.length / 2)) with
        | none => none
        | some right => some (merge cmp true (left ++ right) (l.length / 2)).1
    else
      some l

theorem quick_sort_rec_fuel_eq (cmp : α → α → Int) (rs : Nat → Nat) :
    ∀ fuel l low high t, high - low < fuel →
      quick_sort_rec_fuel cmp rs fuel l low high t =
        some (quick_sort_rec cmp rs l low high t) := by
  intro fuel
  induction fuel with
  | zero =>
    intro l low high t hf
    omega
  | succ fuel ih =>
    intro l low high t hf
    by_cases hlow : low < high
    · rw [quick_sort_rec_step cmp rs l low high t hlow]
      rw [quick_sort_rec_fuel, if_pos hlow]
      have hple := partition_snd_le cmp (choose_random_pivot l low high (rs t))
        low high (by omega)
      have hpge := partition_snd_ge cmp (choose_random_pivot l low high (rs t))
        low high
      by_cases hp2 : 0 < (partition cmp (choose_random_pivot l low high (rs t)) low high).2
      · rw [if_pos hp2, if_pos hp2, ih _ low _ (t + 1) (by omega)]
        exact ih _ _ high _ (by omega)
      · rw [if_neg hp2, if_neg hp2]
        exact ih _ _ high _ (by omega)
    · rw [quick_sort_rec_base cmp rs l low high t hlow]
      rw [quick_sort_rec_fuel, if_neg hlow]

theorem merge_sort_rec_fuel_eq (cmp : α → α → Int) :
    ∀ fuel l, l.length < fuel →
      merge_sort_rec_fuel cmp fuel l = some (merge_sort_rec cmp l) := by
  intro fuel
  induction fuel with
  | zero =>
    intro l hf
    omega
  | succ fuel ih =>
    intro l hf
    by_cases h : 1 < l.length
    · rw [merge_sort_rec, if_pos h]
      rw [merge_sort_rec_fuel, if_pos h]
      rw [ih (l.take (l.length / 2)) (by simp only [List.length_take]; omega)]
      rw [ih (l.drop (l.length / 2)) (by simp only [List.length_drop]; omega)]
    · rw [merge_sort_rec_base cmp l h]
      rw [merge_sort_rec_fuel, if_neg h]

/-! ## The immediate recursive calls of one quicksort invocation -/

/-- The ranges on which one invocation of `quick_sort_rec` immediately
recurses: the left call `[low, pi-1]` is guarded by `pi > 0` (C line
`if (pi > 0)`), and the right call `[pi+1, high]` is unconditional. -/
def quick_sort_rec_calls (cmp : α → α → Int) (rs : Nat → Nat) (l : List α)
    (low high t : Nat) : List (Nat × Nat) :=
  if low < high then
    let l1 := choose_random_pivot l low high (rs t)
    let p := partition cmp l1 low high
    (if 0 < p.2 then [(low, p.2 - 1)] else []) ++ [(p.2 + 1, high)]
  else
    []

/-! ## Propagation of allocation failure through the mergesort recursion -/

theorem merge_sort_recE_base (cmp : α → α → Int) (alloc : Nat → Bool)
    (l : List α) (t : Nat) (h : ¬ 1 < l.length) :
    merge_sort_recE cmp alloc l t = (Except.ok l, t) := by
  rw [merge_sort_recE, if_neg h]

theorem merge_sort_recE_alloc_fail (cmp : α → α → Int) :
    ∀ n (l : List α), l.length ≤ n → 1 < l.length → ∀ t,
      (merge_sort_recE cmp (fun _ => false) l t).1 =
        Except.error SortError.outOfMemory := by
  intro n
  induction n with
  | zero =>
    intro l h1 h2
    omega
  | succ n ih =>
    intro l h1 h2 t
    by_cases hm : 1 < (l.take (l.length / 2)).length
    · have hfail := ih (l.take (l.length / 2))
        (by simp only [List.length_take]; omega) hm t
      rcases hx : merge_sort_recE cmp (fun _ => false) (l.take (l.length / 2)) t with
        ⟨res, t1⟩
      rw [hx] at hfail
      simp only at hfail
      subst hfail
      rw [merge_sort_recE, if_pos h2]
      simp [hx]
    · by_cases hm2 : 1 < (l.drop (l.length / 2)).length
      · have hfail := ih (l.drop (l.length / 2))
          (by simp only [List.length_drop]; omega) hm2 t
        rcases hx : merge_sort_recE cmp (fun _ => false) (l.drop (l.length / 2)) t with
          ⟨res, t2⟩
        rw [hx] at hfail
        simp only at hfail
        subst hfail
        rw [merge_sort_recE, if_pos h2, merge_sort_recE_base cmp _ _ t hm]
        simp [hx]
      · rw [merge_sort_recE, if_pos h2, merge_sort_recE_base cmp _ _ t hm]
        simp [merge_sort_recE_base cmp _ _ t hm2, merge]

/-! ## Permutation for quicksort under an arbitrary comparator -/

/-- The quicksort recursion permutes its input for every comparator, valid
or not (the sortedness conclusion of `quick_sort_rec_correct` is the only
part needing comparator validity). -/
theorem quick_sort_rec_perm (cmp : α → α → Int) (rs : Nat → Nat) :
    ∀ d l low high t, high - low ≤ d → high < l.length →
      ((quick_sort_rec cmp rs l low high t).1.length = l.length) ∧
      List.Perm ((quick_sort_rec cmp rs l low high t).1) l := by
  intro d
  induction d with
  | zero =>
    intro l low high t hd hhl
    rw [quick_sort_rec_base cmp rs l low high t (by omega)]
    exact ⟨rfl, List.Perm.refl l⟩
  | succ d ih =>
    intro l low high t hd hhl
    by_cases hlow : low < high
    case neg =>
      rw [quick_sort_rec_base cmp rs l low high t hlow]
      exact ⟨rfl, List.Perm.refl l⟩
    case pos =>
    rw [quick_sort_rec_step cmp rs l low high t hlow]
    set l1 := choose_random_pivot l low high (rs t) with hl1
    set p := partition cmp l1 low high with hp
    have hpidx : low + rs t % (high - low + 1) ≤ high := by
      have := Nat.mod_lt (rs t) (show 0 < high - low + 1 by omega)
      omega
    have hl1len : l1.length = l.length := by
      rw [hl1]; simp [choose_random_pivot]
    have hl1perm : List.Perm l1 l := by
      rw [hl1]; simp only [choose_random_pivot]
      exact swap_perm l _ high (by omega) (by omega)
    have hplen : p.1.length = l.length := by
      rw [hp, partition_length]; omega
    have hpperm : List.Perm p.1 l1 := by
      rw [hp]; exact partition_perm cmp l1 low high (by omega) (by omega)
    have hpge : low ≤ p.2 := by rw [hp]; exact partition_snd_ge cmp l1 low high
    have hple : p.2 ≤ high := by
      rw [hp]; exact partition_snd_le cmp l1 low high (by omega)
    set L := (if 0 < p.2 then quick_sort_rec cmp rs p.1 low (p.2 - 1) (t + 1)
              else (p.1, t + 1)) with hL
    have HL : L.1.length = p.1.length ∧ List.Perm L.1 p.1 := by
      by_cases hp2 : 0 < p.2
      · rw [hL, if_pos hp2]
        have h := ih p.1 low (p.2 - 1) (t + 1) (by omega) (by omega)
        exact ⟨h.1, h.2⟩
      · rw [hL, if_neg hp2]
        exact ⟨rfl, List.Perm.refl _⟩
    have hR := ih L.1 (p.2 + 1) high L.2 (by omega) (by omega)
    refine ⟨by omega, hR.2.trans (HL.2.trans (hpperm.trans hl1perm))⟩

/-! ## Concrete comparators (C convention: negative / zero / positive) -/

/-- Integer comparator, the shape of the repository's record comparators. -/
def intCmp (x y : Int) : Int := if x < y then -1 else if y < x then 1 else 0

theorem intCmp_valid : ValidCmp intCmp := by
  constructor
  · intro x y
    unfold intCmp
    split_ifs <;> omega
  · intro x y z
    unfold intCmp
    split_ifs <;> omega

/-- Natural-number comparator in the same convention. -/
def natCmp (x y : Nat) : Int := if x < y then -1 else if y < x then 1 else 0

theorem natCmp_valid : ValidCmp natCmp := by
  constructor
  · intro x y
    unfold natCmp
    split_ifs <;> omega
  · intro x y z
    unfold natCmp
    split_ifs <;> omega

/-- Comparator on pairs that looks only at the first component, so distinct
references can compare equal: a total preorder that is not a total order. -/
def fstCmp (p q : Nat × Nat) : Int := natCmp p.1 q.1

theorem fstCmp_valid : ValidCmp fstCmp := by
  constructor
  · intro x y
    exact natCmp_valid.sign x.1 y.1
  · intro x y z
    exact natCmp_valid.le_trans x.1 y.1 z.1

/-- The quicksort output of a positive-length run is pairwise
non-decreasing under a valid comparator. -/
theorem quick_sort_rec_out_pairwise (cmp : α → α → Int) (hv : ValidCmp cmp)
    (rs : Nat → Nat) (l : List α) (n : Nat) (hn : n = l.length) (hn0 : 0 < n) :
    List.Pairwise (fun a b => cmp a b ≤ 0)
      ((quick_sort_rec cmp rs l 0 (n - 1) 0).1) := by
  obtain ⟨hlen, hout, hperm, hsort⟩ :=
    quick_sort_rec_correct cmp hv rs (n - 1) l 0 (n - 1) 0 (by omega) (by omega)
  rw [List.pairwise_iff_getElem]
  intro i j hi hj hij
  have hgi : (quick_sort_rec cmp rs l 0 (n - 1) 0).1.getD i default =
      (quick_sort_rec cmp rs l 0 (n - 1) 0).1[i] := by
    simp [List.getD_eq_getElem?_getD, List.getElem?_eq_getElem hi]
  have hgj : (quick_sort_rec cmp rs l 0 (n - 1) 0).1.getD j default =
      (quick_sort_rec cmp rs l 0 (n - 1) 0).1[j] := by
    simp [List.getD_eq_getElem?_getD, List.getElem?_eq_getElem hj]
  have h := hsort i j (by omega) (by omega) (by omega)
  rwa [hgi, hgj] at h

/-! ## Claim theorems -/

/-- C10: for every range `[low, high]` with `low <= high` over a valid
sequence and every value returned by the random source, the index computed
by `choose_random_pivot` lies within `[low, high]`, so both array accesses
are in bounds, and its only effect is to exchange the references at that
index and at `high`. -/
theorem C10_choose_random_pivot_in_bounds (l : List α) (low high r : Nat)
    (hlh : low ≤ high) (hhl : high < l.length) :
    low ≤ low + r % (high - low + 1) ∧
    low + r % (high - low + 1) ≤ high ∧
    low + r % (high - low + 1) < l.length ∧
    choose_random_pivot l low high r = swap l (low + r % (high - low + 1)) high := by
  have hmod := Nat.mod_lt r (show 0 < high - low + 1 by omega)
  exact ⟨by omega, by omega, by omega, rfl⟩

theorem C10_witness :
    ((1 : Nat) ≤ 2 ∧ (2 : Nat) < ([10, 20, 30] : List Int).length) ∧
    (1 ≤ 1 + 5 % (2 - 1 + 1) ∧
     1 + 5 % (2 - 1 + 1) ≤ 2 ∧
     1 + 5 % (2 - 1 + 1) < ([10, 20, 30] : List Int).length ∧
     choose_random_pivot ([10, 20, 30] : List Int) 1 2 5 =
       swap ([10, 20, 30] : List Int) (1 + 5 % (2 - 1 + 1)) 2) :=
  ⟨⟨by decide, by decide⟩,
   C10_choose_random_pivot_in_bounds [10, 20, 30] 1 2 5 (by decide) (by decide)⟩

/-- C9: every engine operation preserves the multiset of references:
`swap`, `choose_random_pivot`, `partition` (whole array and the touched
range), and the merge primitive (even on unsorted sub-ranges) each permute
their input, and consequently both recursive drivers return permutations,
so throughout either sort the sequence holds exactly the original
references. -/
theorem C9_operations_preserve_multiset (cmp : α → α → Int) :
    (∀ (l : List α) (a b : Nat), a < l.length → b < l.length →
      List.Perm (swap l a b) l) ∧
    (∀ (l : List α) (low high r : Nat), low ≤ high → high < l.length →
      List.Perm (choose_random_pivot l low high r) l) ∧
    (∀ (l : List α) (low high : Nat), low ≤ high → high < l.length →
      List.Perm ((partition cmp l low high).1) l ∧
      List.Perm (slice ((partition cmp l low high).1) low high)
        (slice l low high)) ∧
    (∀ xs ys : List α, List.Perm (mergeLoop cmp xs ys) (xs ++ ys)) ∧
    (∀ (l : List α) (middle_i : Nat),
      List.Perm ((merge cmp true l middle_i).1) l) ∧
    (∀ (rs : Nat → Nat) (l : List α) (low high t : Nat), high < l.length →
      List.Perm ((quick_sort_rec cmp rs l low high t).1) l) ∧
    (∀ l : List α, List.Perm (merge_sort_rec cmp l) l) := by
  refine ⟨swap_perm, ?_, ?_, mergeLoop_perm cmp, ?_, ?_, merge_sort_rec_perm cmp⟩
  · intro l low high r hlh hhl
    have hmod := Nat.mod_lt r (show 0 < high - low + 1 by omega)
    simp only [choose_random_pivot]
    exact swap_perm l _ high (by omega) (by omega)
  · intro l low high hlh hhl
    refine ⟨partition_perm cmp l low high hlh hhl, ?_⟩
    exact slice_perm_of_perm_outside l ((partition cmp l low high).1) low high
      hlh hhl (partition_length cmp l low high)
      (partition_perm cmp l low high hlh hhl)
      (partition_getD_outside cmp l low high hlh)
  · intro l middle_i
    simp only [merge, if_true]
    exact (mergeLoop_perm cmp _ _).trans
      (by rw [List.take_append_drop])
  · intro rs l low high t hhl
    exact (quick_sort_rec_perm cmp rs (high - low) l low high t (le_refl _) hhl).2

theorem C9_witness :
    ((0 : Nat) < ([1, 2] : List Int).length ∧
      (1 : Nat) < ([1, 2] : List Int).length) ∧
    List.Perm (swap ([1, 2] : List Int) 0 1) [1, 2] :=
  ⟨⟨by decide, by decide⟩,
   (C9_operations_preserve_multiset intCmp).1 [1, 2] 0 1 (by decide) (by decide)⟩

/-- C3: for every range `[low, high]` with `low <= high` over a valid
sequence and every comparator defining a total preorder,
`partition` returns `i` with `low <= i <= high`; afterwards the reference
that was at `high` on entry sits at `i`; every element in `[low, i-1]`
compares strictly less than the pivot; no element in `[i+1, high]`
compares strictly less than the pivot; and the multiset of references in
`[low, high]` is unchanged. -/
theorem C3_partition_spec (cmp : α → α → Int) (hv : ValidCmp cmp) (l : List α)
    (low high : Nat) (hlh : low ≤ high) (hhl : high < l.length) :
    low ≤ (partition cmp l low high).2 ∧
    (partition cmp l low high).2 ≤ high ∧
    ((partition cmp l low high).1).getD (partition cmp l low high).2 default =
      l.getD high default ∧
    (∀ k, low ≤ k → k < (partition cmp l low high).2 →
      cmp (((partition cmp l low high).1).getD k default)
        (l.getD high default) < 0) ∧
    (∀ k, (partition cmp l low high).2 < k → k ≤ high →
      ¬ cmp (((partition cmp l low high).1).getD k default)
        (l.getD high default) < 0) ∧
    List.Perm (slice ((partition cmp l low high).1) low high)
      (slice l low high) := by
  refine ⟨partition_snd_ge cmp l low high, partition_snd_le cmp l low high hlh,
    partition_getD_pivot cmp l low high hlh hhl,
    partition_lt_pivot cmp l low high hlh hhl,
    partition_ge_pivot cmp l low high hlh hhl, ?_⟩
  exact slice_perm_of_perm_outside l ((partition cmp l low high).1) low high
    hlh hhl (partition_length cmp l low high)
    (partition_perm cmp l low high hlh hhl)
    (partition_getD_outside cmp l low high hlh)

theorem C3_witness :
    (ValidCmp intCmp ∧ (0 : Nat) ≤ 1 ∧ (1 : Nat) < ([2, 1] : List Int).length) ∧
    (0 ≤ (partition intCmp ([2, 1] : List Int) 0 1).2 ∧
     (partition intCmp ([2, 1] : List Int) 0 1).2 ≤ 1 ∧
     ((partition intCmp ([2, 1] : List Int) 0 1).1).getD
        (partition intCmp ([2, 1] : List Int) 0 1).2 default =
       ([2, 1] : List Int).getD 1 default ∧
     (∀ k, 0 ≤ k → k < (partition intCmp ([2, 1] : List Int) 0 1).2 →
       intCmp (((partition intCmp ([2, 1] : List Int) 0 1).1).getD k default)
         (([2, 1] : List Int).getD 1 default) < 0) ∧
     (∀ k, (partition intCmp ([2, 1] : List Int) 0 1).2 < k → k ≤ 1 →
       ¬ intCmp (((partition intCmp ([2, 1] : List Int) 0 1).1).getD k default)
         (([2, 1] : List Int).getD 1 default) < 0) ∧
     List.Perm (slice ((partition intCmp ([2, 1] : List Int) 0 1).1) 0 1)
       (slice ([2, 1] : List Int) 0 1)) :=
  ⟨⟨intCmp_valid, by decide, by decide⟩,
   C3_partition_spec intCmp intCmp_valid [2, 1] 0 1 (by decide) (by decide)⟩

/-- C4: both top-level operations reject a null sequence or comparator with
`InvalidArgument` and no mutation; with non-null arguments, `N = 0` and
`N = 1` succeed as no-ops leaving the content unchanged, and for `N = 0`
(and in fact `N = 1` too) the result does not depend on the comparator, so
the comparator is never consulted. -/
theorem C4_entry_contract (cmp : α → α → Int) (rs : Nat → Nat) (l : List α)
    (n : Nat) :
    (quick_sort (α := α) none rs none n = (none, some SortError.invalidArgument)) ∧
    (quick_sort (some cmp) rs none n = (none, some SortError.invalidArgument)) ∧
    (quick_sort none rs (some l) n = (some l, some SortError.invalidArgument)) ∧
    (merge_sort (α := α) none none n = (none, some SortError.invalidArgument)) ∧
    (merge_sort (some cmp) none n = (none, some SortError.invalidArgument)) ∧
    (merge_sort none (some l) n = (some l, some SortError.invalidArgument)) ∧
    (n = 0 ∨ n = 1 →
      quick_sort (some cmp) rs (some l) n = (some l, none) ∧
      merge_sort (some cmp) (some l) n = (some l, none)) ∧
    (∀ cmp' : α → α → Int,
      quick_sort (some cmp) rs (some l) 0 = quick_sort (some cmp') rs (some l) 0 ∧
      merge_sort (some cmp) (some l) 0 = merge_sort (some cmp') (some l) 0) := by
  refine ⟨rfl, rfl, rfl, rfl, rfl, rfl, ?_, ?_⟩
  · intro hn
    constructor
    · rcases hn with rfl | rfl
      · rfl
      · show (if 0 < 1 then
            (some (quick_sort_rec cmp rs l 0 (1 - 1) 0).1, none)
          else (some l, none)) = (some l, none)
        rw [if_pos (by omega), quick_sort_rec_base cmp rs l 0 0 0 (by omega)]
    · rcases hn with rfl | rfl <;> rfl
  · intro cmp'
    exact ⟨rfl, rfl⟩

theorem C4_witness :
    ((0 : Nat) = 0 ∨ (0 : Nat) = 1) ∧
    (quick_sort (some intCmp) (fun _ => 0) (some ([7] : List Int)) 0 =
        (some [7], none) ∧
      merge_sort (some intCmp) (some ([7] : List Int)) 0 = (some [7], none)) :=
  ⟨Or.inl rfl,
   (C4_entry_contract intCmp (fun _ => 0) [7] 0).2.2.2.2.2.2.1 (Or.inl rfl)⟩

/-- C6: both recursive drivers reach their base cases within an explicit
finite recursion budget on every input: a budget of `high - low + 1` always
suffices for `quick_sort_rec` (for every sequence of pivot choices), and a
budget of `l.length + 1` for `merge_sort_rec`, so each top-level sort runs
to completion. -/
theorem C6_recursions_terminate (cmp : α → α → Int) (rs : Nat → Nat) :
    (∀ (l : List α) (low high t : Nat),
      quick_sort_rec_fuel cmp rs (high - low + 1) l low high t =
        some (quick_sort_rec cmp rs l low high t)) ∧
    (∀ l : List α,
      merge_sort_rec_fuel cmp (l.length + 1) l = some (merge_sort_rec cmp l)) := by
  constructor
  · intro l low high t
    exact quick_sort_rec_fuel_eq cmp rs (high - low + 1) l low high t (by omega)
  · intro l
    exact merge_sort_rec_fuel_eq cmp (l.length + 1) l (by omega)

/-- C7: if the scratch-buffer allocation fails during a merge step, the
failure is an explicit `OutOfMemory` error and the affected range is not
mutated; through the allocation-aware recursion the failure propagates to
the top-level call whenever the sequence is long enough (`N >= 2`) for a
merge to occur. -/
theorem C7_alloc_failure (cmp : α → α → Int) (l : List α) (middle_i : Nat) :
    merge cmp false l middle_i = (l, some SortError.outOfMemory) ∧
    (∀ l' : List α, 2 ≤ l'.length → ∀ t,
      (merge_sort_recE cmp (fun _ => false) l' t).1 =
        Except.error SortError.outOfMemory) := by
  refine ⟨rfl, ?_⟩
  intro l' h t
  exact merge_sort_recE_alloc_fail cmp l'.length l' (le_refl _) (by omega) t

theorem C7_witness :
    2 ≤ ([1, 2] : List Int).length ∧
    (merge_sort_recE intCmp (fun _ => false) ([1, 2] : List Int) 0).1 =
      Except.error SortError.outOfMemory :=
  ⟨by decide, (C7_alloc_failure intCmp [] 0).2 [1, 2] (by decide) 0⟩

/-- C1: for every sequence, every count `N` equal to its length and every
comparator defining a total preorder, both `merge_sort` and `quick_sort`
succeed with the sequence holding a permutation of the original references
that is non-decreasing under the comparator. -/
theorem C1_sorts_sort (cmp : α → α → Int) (hv : ValidCmp cmp)
    (rs : Nat → Nat) (l : List α) (n : Nat) (hn : n = l.length) :
    (∃ out : List α,
      quick_sort (some cmp) rs (some l) n = (some out, none) ∧
      List.Perm out l ∧ List.Pairwise (fun a b => cmp a b ≤ 0) out) ∧
    (∃ out : List α,
      merge_sort (some cmp) (some l) n = (some out, none) ∧
      List.Perm out l ∧ List.Pairwise (fun a b => cmp a b ≤ 0) out) := by
  constructor
  · by_cases hn0 : 0 < n
    · refine ⟨(quick_sort_rec cmp rs l 0 (n - 1) 0).1, ?_, ?_, ?_⟩
      · show (if 0 < n then
            (some (quick_sort_rec cmp rs l 0 (n - 1) 0).1, none)
          else (some l, none)) = _
        rw [if_pos hn0]
      · exact (quick_sort_rec_correct cmp hv rs (n - 1) l 0 (n - 1) 0
          (by omega) (by omega)).2.2.1
      · exact quick_sort_rec_out_pairwise cmp hv rs l n hn hn0
    · have hl0 : l.length = 0 := by omega
      have hl : l = [] := List.length_eq_zero.mp hl0
      subst hl
      refine ⟨[], ?_, List.Perm.refl [], List.Pairwise.nil⟩
      show (if 0 < n then _ else (some ([] : List α), none)) = _
      rw [if_neg hn0]
  · by_cases hn2 : 2 ≤ n
    · refine ⟨merge_sort_rec cmp l, ?_, merge_sort_rec_perm cmp l,
        merge_sort_rec_pairwise cmp hv l⟩
      show (if 2 ≤ n then (some (merge_sort_rec cmp l), none)
          else (some l, none)) = _
      rw [if_pos hn2]
    · refine ⟨l, ?_, List.Perm.refl l, ?_⟩
      · show (if 2 ≤ n then (some (merge_sort_rec cmp l), none)
            else (some l, none)) = _
        rw [if_neg hn2]
      · rcases l with _ | ⟨a, _ | ⟨b, t⟩⟩
        · exact List.Pairwise.nil
        · simp
        · simp at hn
          omega

theorem C1_witness :
    (ValidCmp intCmp ∧ (2 : Nat) = ([2, 1] : List Int).length) ∧
    ((∃ out : List Int,
        quick_sort (some intCmp) (fun _ => 0) (some [2, 1]) 2 = (some out, none) ∧
        List.Perm out [2, 1] ∧ List.Pairwise (fun a b => intCmp a b ≤ 0) out) ∧
      (∃ out : List Int,
        merge_sort (some intCmp) (some [2, 1]) 2 = (some out, none) ∧
        List.Perm out [2, 1] ∧ List.Pairwise (fun a b => intCmp a b ≤ 0) out)) :=
  ⟨⟨intCmp_valid, rfl⟩,
   C1_sorts_sort intCmp intCmp_valid (fun _ => 0) [2, 1] 2 rfl⟩

/-- C2: `merge_sort` is stable: on index-tagged elements whose tags are
strictly increasing in the input, any two elements the comparator ties are
output with their tags still in increasing order; and when the merge
primitive finds its two cursors' elements tied, it takes the element from
the left sub-range. -/
theorem C2_merge_sort_stable (cmp : α → α → Int) (hv : ValidCmp cmp)
    (lp : List (Nat × α))
    (hidx : List.Pairwise (fun p q : Nat × α => p.1 < q.1) lp)
    (n : Nat) (hn : n = lp.length) :
    (∃ out : List (Nat × α),
      merge_sort (some (fun p q => cmp p.2 q.2)) (some lp) n = (some out, none) ∧
      List.Perm out lp ∧
      List.Pairwise (fun p q : Nat × α => cmp p.2 q.2 = 0 → p.1 < q.1) out) ∧
    (∀ (x y : α) (xs ys : List α), cmp x y = 0 →
      mergeLoop cmp (x :: xs) (y :: ys) = x :: mergeLoop cmp xs (y :: ys)) := by
  constructor
  · by_cases hn2 : 2 ≤ n
    · refine ⟨merge_sort_rec (fun p q => cmp p.2 q.2) lp, ?_,
        merge_sort_rec_perm _ lp, ?_⟩
      · show (if 2 ≤ n then
            (some (merge_sort_rec (fun p q : Nat × α => cmp p.2 q.2) lp), none)
          else (some lp, none)) = _
        rw [if_pos hn2]
      · have hst := merge_sort_rec_stable cmp hv lp hidx
        refine hst.imp ?_
        intro p q h heq
        rcases h with h | h
        · omega
        · exact h.2
    · have hpw : List.Pairwise (fun p q : Nat × α => cmp p.2 q.2 = 0 → p.1 < q.1)
          lp := by
        refine hidx.imp ?_
        intro p q h _
        exact h
      refine ⟨lp, ?_, List.Perm.refl lp, hpw⟩
      show (if 2 ≤ n then
          (some (merge_sort_rec (fun p q : Nat × α => cmp p.2 q.2) lp), none)
        else (some lp, none)) = _
      rw [if_neg hn2]
  · intro x y xs ys heq
    rw [mergeLoop, if_pos (by omega)]

theorem C2_witness :
    (ValidCmp intCmp ∧
      List.Pairwise (fun p q : Nat × Int => p.1 < q.1) [(0, 5), (1, 5)] ∧
      (2 : Nat) = ([(0, 5), (1, 5)] : List (Nat × Int)).length) ∧
    ((∃ out : List (Nat × Int),
        merge_sort (some (fun p q : Nat × Int => intCmp p.2 q.2))
          (some [(0, 5), (1, 5)]) 2 = (some out, none) ∧
        List.Perm out [(0, 5), (1, 5)] ∧
        List.Pairwise (fun p q : Nat × Int => intCmp p.2 q.2 = 0 → p.1 < q.1) out) ∧
      (∀ (x y : Int) (xs ys : List Int), intCmp x y = 0 →
        mergeLoop intCmp (x :: xs) (y :: ys) = x :: mergeLoop intCmp xs (y :: ys))) :=
  ⟨⟨intCmp_valid, by decide, rfl⟩,
   C2_merge_sort_stable intCmp intCmp_valid [(0, 5), (1, 5)] (by decide) 2 rfl⟩

theorem quick_sort_rec_calls_eq (cmp : α → α → Int) (rs : Nat → Nat)
    (l : List α) (low high t : Nat) (h : low < high) :
    quick_sort_rec_calls cmp rs l low high t =
      (if 0 < (partition cmp (choose_random_pivot l low high (rs t)) low high).2 then
        [(low, (partition cmp (choose_random_pivot l low high (rs t)) low high).2 - 1)]
       else []) ++
      [((partition cmp (choose_random_pivot l low high (rs t)) low high).2 + 1,
        high)] := by
  rw [quick_sort_rec_calls, if_pos h]

/-- C5 (amended): the left recursive call of the quicksort driver on
`[low, pi-1]` is performed if and only if `pi > 0` (the C guard is
`if (pi > 0)`, not `pi > low`); when `pi = low > 0` the call is still made
but covers the empty range `[low, low-1]` and returns immediately with no
effect. -/
theorem C5_left_recursion_guard (cmp : α → α → Int) (rs : Nat → Nat)
    (l : List α) (low high t : Nat) (h : low < high) :
    ((low, (partition cmp (choose_random_pivot l low high (rs t)) low high).2 - 1) ∈
        quick_sort_rec_calls cmp rs l low high t ↔
      0 < (partition cmp (choose_random_pivot l low high (rs t)) low high).2) ∧
    (∀ (l' : List α) (t' : Nat),
      quick_sort_rec cmp rs l' low (low - 1) t' = (l', t')) := by
  have hge := partition_snd_ge cmp (choose_random_pivot l low high (rs t)) low high
  constructor
  · rw [quick_sort_rec_calls_eq cmp rs l low high t h]
    constructor
    · intro hmem
      by_cases hp0 : 0 < (partition cmp (choose_random_pivot l low high (rs t))
          low high).2
      · exact hp0
      · rw [if_neg hp0] at hmem
        simp only [List.nil_append, List.mem_singleton, Prod.mk.injEq] at hmem
        omega
    · intro hp0
      rw [if_pos hp0]
      exact List.mem_append_left _ (List.mem_singleton.mpr rfl)
  · intro l' t'
    exact quick_sort_rec_base cmp rs l' low (low - 1) t' (by omega)

theorem C5_witness :
    (1 : Nat) < 2 ∧
    (((1 : Nat), (partition intCmp
          (choose_random_pivot ([5, 1, 2] : List Int) 1 2 ((fun _ => 0) 0)) 1 2).2 - 1) ∈
        quick_sort_rec_calls intCmp (fun _ => 0) ([5, 1, 2] : List Int) 1 2 0 ↔
      0 < (partition intCmp
          (choose_random_pivot ([5, 1, 2] : List Int) 1 2 ((fun _ => 0) 0)) 1 2).2) ∧
    (∀ (l' : List Int) (t' : Nat),
      quick_sort_rec intCmp (fun _ => 0) l' 1 (1 - 1) t' = (l', t')) :=
  ⟨by decide,
   (C5_left_recursion_guard intCmp (fun _ => 0) [5, 1, 2] 1 2 0 (by decide)).1,
   (C5_left_recursion_guard intCmp (fun _ => 0) [5, 1, 2] 1 2 0 (by decide)).2⟩

/-- C5 counterexample: on the array `[5, 1, 2]` with range `[1, 2]` and a
random draw of `0`, partitioning yields `pi = 1 = low`, and the left
recursive call on `(1, 0)` is nevertheless performed — refuting the
claim's "if and only if `pi > low`" and "no left recursion when `pi`
equals `low`". -/
theorem C5_counterexample :
    (partition intCmp
      (choose_random_pivot ([5, 1, 2] : List Int) 1 2 ((fun _ => 0) 0)) 1 2).2 = 1 ∧
    (1, 0) ∈ quick_sort_rec_calls intCmp (fun _ => 0) ([5, 1, 2] : List Int) 1 2 0 := by
  have hc : choose_random_pivot ([5, 1, 2] : List Int) 1 2 ((fun _ => 0) 0) =
      [5, 2, 1] := by decide
  have hloop : partitionLoop intCmp (([5, 2, 1] : List Int).getD 2 default)
      ([5, 2, 1] : List Int) 1 1 2 = ([5, 2, 1], 1) := by
    rw [partitionLoop]
    norm_num [intCmp]
    rw [partitionLoop, if_neg (by omega)]
  have hpart : partition intCmp ([5, 2, 1] : List Int) 1 2 = ([5, 1, 2], 1) := by
    rw [partition_eq, hloop]
    decide
  constructor
  · rw [hc, hpart]
  · rw [quick_sort_rec_calls_eq intCmp (fun _ => 0) [5, 1, 2] 1 2 0 (by decide),
      hc, hpart]
    decide

/-- C8 (amended): the outcome of `quick_sort` is independent of the
randomization provided the comparator is moreover antisymmetric (ties only
between identical references, i.e. a total order): any two random streams
produce the same final sequence.  Under a mere total preorder, distinct
references that compare equal can end up in either order depending on the
pivot draws. -/
theorem C8_seed_independent_total_order (cmp : α → α → Int) (hv : ValidCmp cmp)
    (hanti : ∀ x y, cmp x y = 0 → x = y) (rs1 rs2 : Nat → Nat) (l : List α)
    (n : Nat) (hn : n = l.length) :
    quick_sort (some cmp) rs1 (some l) n = quick_sort (some cmp) rs2 (some l) n := by
  by_cases hn0 : 0 < n
  · have hout : (quick_sort_rec cmp rs1 l 0 (n - 1) 0).1 =
        (quick_sort_rec cmp rs2 l 0 (n - 1) 0).1 := by
      have h1p := (quick_sort_rec_correct cmp hv rs1 (n - 1) l 0 (n - 1) 0
        (by omega) (by omega)).2.2.1
      have h2p := (quick_sort_rec_correct cmp hv rs2 (n - 1) l 0 (n - 1) 0
        (by omega) (by omega)).2.2.1
      have h1s := quick_sort_rec_out_pairwise cmp hv rs1 l n hn hn0
      have h2s := quick_sort_rec_out_pairwise cmp hv rs2 l n hn hn0
      haveI : IsAntisymm α (fun a b => cmp a b ≤ 0) := by
        constructor
        intro a b hab hba
        apply hanti
        have hnlt : ¬ cmp a b < 0 := by
          intro hlt
          have := (hv.sign a b).mp hlt
          omega
        omega
      exact List.eq_of_perm_of_sorted (h1p.trans h2p.symm) h1s h2s
    show (if 0 < n then (some (quick_sort_rec cmp rs1 l 0 (n - 1) 0).1, none)
        else (some l, none)) =
      (if 0 < n then (some (quick_sort_rec cmp rs2 l 0 (n - 1) 0).1, none)
        else (some l, none))
    rw [if_pos hn0, if_pos hn0, hout]
  · show (if 0 < n then (some (quick_sort_rec cmp rs1 l 0 (n - 1) 0).1, none)
        else (some l, none)) =
      (if 0 < n then (some (quick_sort_rec cmp rs2 l 0 (n - 1) 0).1, none)
        else (some l, none))
    rw [if_neg hn0, if_neg hn0]

theorem C8_witness :
    (ValidCmp intCmp ∧ (∀ x y : Int, intCmp x y = 0 → x = y) ∧
      (2 : Nat) = ([2, 1] : List Int).length) ∧
    quick_sort (some intCmp) (fun _ => 0) (some ([2, 1] : List Int)) 2 =
      quick_sort (some intCmp) (fun _ => 1) (some ([2, 1] : List Int)) 2 :=
  ⟨⟨intCmp_valid, fun x y h => by
      unfold intCmp at h
      split_ifs at h <;> omega, rfl⟩,
   C8_seed_independent_total_order intCmp intCmp_valid
     (fun x y h => by
       unfold intCmp at h
       split_ifs at h <;> omega)
     (fun _ => 0) (fun _ => 1) [2, 1] 2 rfl⟩

/-- C8 counterexample: with the total-preorder comparator `fstCmp` (which
ties the distinct references `(0,0)` and `(0,1)`), two runs of
`quick_sort` on the same input with different random streams produce
different final sequences — refuting seed-independence as claimed for
arbitrary total preorders. -/
theorem C8_counterexample :
    ValidCmp fstCmp ∧
    quick_sort (some fstCmp) (fun _ => 0)
        (some [((0 : Nat), (0 : Nat)), (0, 1)]) 2 ≠
      quick_sort (some fstCmp) (fun _ => 1)
        (some [((0 : Nat), (0 : Nat)), (0, 1)]) 2 := by
  refine ⟨fstCmp_valid, ?_⟩
  have hc1 : choose_random_pivot [((0 : Nat), (0 : Nat)), (0, 1)] 0 1
      ((fun _ => 0) 0) = [(0, 1), (0, 0)] := by decide
  have hc2 : choose_random_pivot [((0 : Nat), (0 : Nat)), (0, 1)] 0 1
      ((fun _ => 1) 0) = [(0, 0), (0, 1)] := by decide
  have hloop1 : partitionLoop fstCmp
      (([((0 : Nat), (1 : Nat)), (0, 0)] : List (Nat × Nat)).getD 1 default)
      ([((0 : Nat), (1 : Nat)), (0, 0)] : List (Nat × Nat)) 0 0 1 =
      ([(0, 1), (0, 0)], 0) := by
    rw [partitionLoop]
    norm_num [fstCmp, natCmp]
    rw [partitionLoop, if_neg (by omega)]
  have hloop2 : partitionLoop fstCmp
      (([((0 : Nat), (0 : Nat)), (0, 1)] : List (Nat × Nat)).getD 1 default)
      ([((0 : Nat), (0 : Nat)), (0, 1)] : List (Nat × Nat)) 0 0 1 =
      ([(0, 0), (0, 1)], 0) := by
    rw [partitionLoop]
    norm_num [fstCmp, natCmp]
    rw [partitionLoop, if_neg (by omega)]
  have hp1 : partition fstCmp ([((0 : Nat), (1 : Nat)), (0, 0)] : List (Nat × Nat))
      0 1 = ([(0, 0), (0, 1)], 0) := by
    rw [partition_eq, hloop1]
    decide
  have hp2 : partition fstCmp ([((0 : Nat), (0 : Nat)), (0, 1)] : List (Nat × Nat))
      0 1 = ([(0, 1), (0, 0)], 0) := by
    rw [partition_eq, hloop2]
    decide
  have h1 : quick_sort_rec fstCmp (fun _ => 0)
      [((0 : Nat), (0 : Nat)), (0, 1)] 0 1 0 = ([(0, 0), (0, 1)], 1) := by
    rw [quick_sort_rec_step fstCmp (fun _ => 0) _ 0 1 0 (by omega), hc1, hp1]
    norm_num
    exact quick_sort_rec_base fstCmp (fun _ => 0) _ 1 1 1 (by omega)
  have h2 : quick_sort_rec fstCmp (fun _ => 1)
      [((0 : Nat), (0 : Nat)), (0, 1)] 0 1 0 = ([(0, 1), (0, 0)], 1) := by
    rw [quick_sort_rec_step fstCmp (fun _ => 1) _ 0 1 0 (by omega), hc2, hp2]
    norm_num
    exact quick_sort_rec_base fstCmp (fun _ => 1) _ 1 1 1 (by omega)
  show (if 0 < 2 then
      (some (quick_sort_rec fstCmp (fun _ => 0)
        [((0 : Nat), (0 : Nat)), (0, 1)] 0 1 0).1, none)
    else (some [((0 : Nat), (0 : Nat)), (0, 1)], none)) ≠
    (if 0 < 2 then
      (some (quick_sort_rec fstCmp (fun _ => 1)
        [((0 : Nat), (0 : Nat)), (0, 1)] 0 1 0).1, none)
    else (some [((0 : Nat), (0 : Nat)), (0, 1)], none))
  rw [if_pos (by omega), if_pos (by omega), h1, h2]
  decide

end MergeQuickSort
